import Mathlib

/-!
Verification development for the delimiter-driven streaming tokenizer of
nx_fsutils (class ReadLines in src/nx_fsutils/__init__.py, together with
readlines).  The scanner state is embedded as an explicit structure, the
underlying file object is modelled as the full source content plus a read
position (reads return the next chunk, as io.StringIO does), and the loop of
ReadLines._next is embedded as a fuel-indexed structural recursion so that
every definition is executable by kernel reduction.  Python ints are modelled
by Int where a value can go negative (the search offset arithmetic and peek
sizes) and by Nat elsewhere.
-/

/-- The delimiter of a scanner: either a literal sequence of units
(str or bytes in the source), or a compiled regular-expression object whose
search method is abstracted as a function from a buffer and a start offset
to an optional pair of match start and match end (re match objects expose
start(), end(), and endpos, with endpos equal to the buffer length because
ReadLines._next calls search without an endpos argument). -/
inductive Delim (α : Type) where
  | lit : List α → Delim α
  | pat : (List α → Nat → Option (Nat × Nat)) → Delim α

/-- The state of a ReadLines scanner.  content is the whole source text from
the position recorded at construction (self._start), pos the current read
position of the file object, buf the in-memory buffer self._buf, idx the
cursor self._idx, eof the flag self._eof, buffer_size the chunk size,
closed the flag self._closed, managed the ownership flag self._managed, and
handleClosed whether the underlying handle has actually been closed. -/
structure ReadLines (α : Type) where
  content : List α
  pos : Nat
  buf : List α
  idx : Nat
  eof : Bool
  buffer_size : Nat
  delimiter : Delim α
  closed : Bool
  managed : Bool
  handleClosed : Bool

namespace ReadLines

variable {α : Type}

/-- self._fobj.read(n): return the next n units (fewer at end of stream) and
advance the read position, as a read on a regular file or io.StringIO does. -/
def fread (s : ReadLines α) (n : Nat) : List α × ReadLines α :=
  let d := (s.content.drop s.pos).take n
  (d, { s with pos := s.pos + d.length })

/-- The unconsumed part of the stream: the buffer from the cursor on,
followed by the source content not yet read into the buffer. -/
def unread (s : ReadLines α) : List α :=
  s.buf.drop s.idx ++ s.content.drop s.pos

/-- d occurs in l at position j (the occurrence lies entirely inside l). -/
def occursAt (l d : List α) (j : Nat) : Prop :=
  j + d.length ≤ l.length ∧ (l.drop j).take d.length = d

instance [DecidableEq α] (l d : List α) (j : Nat) : Decidable (occursAt l d j) := by
  unfold occursAt; infer_instance

/-- Position of the first occurrence of d in l, if any (None otherwise). -/
def findSub [DecidableEq α] (d : List α) : List α → Option Nat
  | [] => if d = [] then some 0 else none
  | a :: t =>
    if (a :: t).take d.length = d then some 0
    else (findSub d t).map (fun k => k + 1)

/-- Python str.find(d, start) on buf (restricted to nonnegative start):
the least j with start ≤ j at which d occurs, None standing for -1. -/
def strFind [DecidableEq α] (buf d : List α) (start : Nat) : Option Nat :=
  if start ≤ buf.length then (findSub d (buf.drop start)).map (fun k => start + k)
  else none

/-- Fuel bound under which the loop of ReadLines._next is fully executed:
every iteration that does not return either reads at least one unit from the
source or sets the end-of-file flag, after which the next iteration returns. -/
def fuelOk (fuel : Nat) (s : ReadLines α) : Prop :=
  2 * (s.content.length - s.pos) + (if s.eof then 1 else 2) ≤ fuel

/-- One search attempt of the body of ReadLines._next, branching on the two
delimiter kinds exactly as the isinstance test does.  A Sum.inl value is a
match end to be returned at once; a Sum.inr value is the search offset with
which the loop compacts, refills and retries.  The offset is an Int because
len(delimiter) - 1 is computed with Python ints (it is -1 for an empty
delimiter). -/
def searchResult [DecidableEq α] (delim : Delim α) (buf : List α)
    (idx searchIdx : Nat) : Sum Nat Int :=
  match delim with
  | Delim.lit d =>
    match strFind buf d searchIdx with
    | some j => Sum.inl (j + d.length)
    | none => Sum.inr ((d.length : Int) - 1)
  | Delim.pat m =>
    match m buf searchIdx with
    | some (ms, me) =>
      if me = buf.length then Sum.inr ((me : Int) - (ms : Int))
      else Sum.inl me
    | none => Sum.inr ((buf.length : Int) - (idx : Int))

/-- The compact-and-refill step of the loop of _next, taken when the search
failed and the source is not exhausted: drop the consumed prefix buf[:idx],
compute the next search index from the compacted length and the search offset
(clamping a negative value at 0, as the Python code does), and read one more
chunk, setting the eof flag when the read returns nothing.  The result is the
new state, the new buffer, and the new search index. -/
def refill (s : ReadLines α) (buf : List α) (idx : Nat) (searchOffset : Int) :
    ReadLines α × List α × Nat :=
  let buf2 := buf.drop idx
  let searchIdx2 := (((buf2.length : Int)) - searchOffset).toNat
  let r := fread s s.buffer_size
  let s2 := if r.1.isEmpty then { r.2 with eof := true } else r.2
  (s2, buf2 ++ r.1, searchIdx2)

/-- The core loop proper: a search attempt per iteration; a Sum.inl outcome
returns at once, and a Sum.inr outcome either finishes at end of source
(residual record, or the end-of-stream triple ([], 0, 0)) or compacts,
refills and retries. -/
def nextLoopF [DecidableEq α] : Nat → ReadLines α → List α → Nat → Nat →
    (List α × Nat × Nat) × ReadLines α
  | 0, s, _, _, _ => (([], 0, 0), s)
  | fuel + 1, s, buf, idx, searchIdx =>
    match searchResult s.delimiter buf idx searchIdx with
    | Sum.inl me => ((buf, idx, me), s)
    | Sum.inr searchOffset =>
      if s.eof then
        if idx < buf.length then ((buf, idx, buf.length), s)
        else (([], 0, 0), s)
      else
        nextLoopF fuel (refill s buf idx searchOffset).1
          (refill s buf idx searchOffset).2.1 0
          (refill s buf idx searchOffset).2.2

/-- ReadLines._next: run the search loop on the current buffer and cursor.
It returns the (possibly grown) buffer together with the match start and the
match end, and the state with the file position and eof flag updated; the
caller stores the buffer and moves the cursor.  The fuel passed is always
sufficient for the loop to run to completion. -/
def nextm [DecidableEq α] (s : ReadLines α) : (List α × Nat × Nat) × ReadLines α :=
  nextLoopF (2 * s.content.length + 2) s s.buf s.idx s.idx

/-- ReadLines.__next__: fetch the next record, store the buffer, advance the
cursor to the match end; a match end of 0 signals StopIteration (None here). -/
def nextRecord [DecidableEq α] (s : ReadLines α) : Option (List α) × ReadLines α :=
  match nextm s with
  | ((buf, ms, me), s1) =>
    let s2 := { s1 with buf := buf, idx := me }
    if me = 0 then (none, s2)
    else (some ((buf.drop ms).take (me - ms)), s2)

/-- The inner while loop of ReadLines.peek with a size argument: keep reading
while the previous read was short of the outstanding amount and nonempty. -/
def peekFillF : Nat → ReadLines α → List α → Nat → Nat → List α × ReadLines α
  | 0, s, buf, _, _ => (buf, s)
  | fuel + 1, s, buf, toRead, tmpLen =>
    if 0 < tmpLen ∧ tmpLen < toRead then
      let t2 := toRead - tmpLen
      let r := fread s t2
      let s2 := if r.1.isEmpty then { r.2 with eof := true } else r.2
      peekFillF fuel s2 (buf ++ r.1) t2 r.1.length
    else (buf, s)

/-- ReadLines.peek.  With size = some n it returns buf[idx : idx + n] after
ensuring, when the source is not exhausted, that the shortfall has been read
in chunk-size multiples (math.ceil(extra / buffer_size) * buffer_size); a
nonpositive n returns the empty sequence at once.  With size = none it runs
the record search of _next, stores the grown buffer, but resets the cursor to
the match start instead of the match end. -/
def peek [DecidableEq α] (s : ReadLines α) (size : Option Int) : List α × ReadLines α :=
  match size with
  | some sz =>
    if sz ≤ 0 then ([], s)
    else
      let extra : Int := sz - (((s.buf.length : Int)) - (s.idx : Int))
      if 0 < extra ∧ s.eof = false then
        let toRead := ((extra.toNat + s.buffer_size - 1) / s.buffer_size) * s.buffer_size
        let r := fread s toRead
        let s2 := if r.1.isEmpty then { r.2 with eof := true } else r.2
        let br := peekFillF (toRead + 1) s2 (s.buf ++ r.1) toRead r.1.length
        ((br.1.drop s.idx).take sz.toNat, { br.2 with buf := br.1 })
      else ((s.buf.drop s.idx).take sz.toNat, s)
  | none =>
    match nextm s with
    | ((buf, ms, me), s1) =>
      ((buf.drop ms).take (me - ms), { s1 with buf := buf, idx := ms })

/-- ReadLines.reset: seek the source back to the start position recorded at
construction, re-read the first chunk, reset the cursor and the eof flag, and
optionally replace the delimiter. -/
def reset (s : ReadLines α) (delimiter : Option (Delim α)) : ReadLines α :=
  let s0 := { s with pos := 0 }
  let r := fread s0 s.buffer_size
  let s1 := { r.2 with buf := r.1, idx := 0, eof := r.1.isEmpty }
  match delimiter with
  | some d => { s1 with delimiter := d }
  | none => s1

/-- ReadLines.close: a no-op when already closed; otherwise mark the scanner
closed, drop the buffer, reset the cursor, set eof, and close the underlying
handle only when the scanner owns it (self._managed). -/
def close (s : ReadLines α) : ReadLines α :=
  if s.closed then s
  else { s with closed := true, buf := [], idx := 0, eof := true,
                handleClosed := s.handleClosed || s.managed }

/-- ReadLines.__init__ on a source whose content (from the construction-time
position) is the given list: perform the initial chunk read, start with the
cursor at 0, and set eof when that read returned nothing. -/
def init (content : List α) (delimiter : Delim α) (buffer_size : Nat)
    (managed : Bool) : ReadLines α :=
  let buf := content.take buffer_size
  { content := content, pos := buf.length, buf := buf, idx := 0,
    eof := buf.isEmpty, buffer_size := buffer_size, delimiter := delimiter,
    closed := false, managed := managed, handleClosed := false }

/-- Iterating the scanner (readlines drives exactly this): collect records
until __next__ signals StopIteration, with a fuel bound on the number of
records. -/
def runRecords [DecidableEq α] : ReadLines α → Nat → List (List α)
  | _, 0 => []
  | s, fuel + 1 =>
    match nextRecord s with
    | (none, _) => []
    | (some r, s1) => r :: runRecords s1 fuel

/-- All records of a scanner: the source length bounds the record count,
because every record of a run that terminates consumes at least one unit. -/
def allRecords [DecidableEq α] (s : ReadLines α) : List (List α) :=
  runRecords s (s.content.length + 1)

/-- Apply __next__ n times, keeping only the state. -/
def consumeN [DecidableEq α] (s : ReadLines α) : Nat → ReadLines α
  | 0 => s
  | n + 1 => consumeN (nextRecord s).2 n

/-- Basic well-formedness of a scanner state: the cursor lies inside the
buffer, the read position inside the content, the eof flag is set only once
the content is fully read, and the chunk size is positive. -/
def WF (s : ReadLines α) : Prop :=
  s.idx ≤ s.buf.length ∧ s.pos ≤ s.content.length ∧
    (s.eof = true → s.content.length ≤ s.pos) ∧ 0 < s.buffer_size

instance (s : ReadLines α) : Decidable (WF s) := by
  unfold WF; infer_instance

end ReadLines

open ReadLines

/-- Python re search for the regular expression c+ (one or more repetitions
of the single unit c): the match starts at the first occurrence of c at or
after the start offset and extends over the maximal run of c. -/
def plusMatcher [DecidableEq α] (c : α) (buf : List α) (start : Nat) :
    Option (Nat × Nat) :=
  match strFind buf [c] start with
  | none => none
  | some i => some (i, i + ((buf.drop i).takeWhile (fun x => x = c)).length)

/-- Python re search for an alternation of two literal words (such as
abb|b): positions are tried left to right from the start offset, and at each
position the first alternative is preferred. -/
def altFind [DecidableEq α] (p1 p2 : List α) : List α → Option (Nat × Nat)
  | [] =>
    if p1 = [] then some (0, 0)
    else if p2 = [] then some (0, 0)
    else none
  | a :: t =>
    if (a :: t).take p1.length = p1 then some (0, p1.length)
    else if (a :: t).take p2.length = p2 then some (0, p2.length)
    else (altFind p1 p2 t).map (fun r => (r.1 + 1, r.2 + 1))

/-- The search method of an alternation pattern, with the start offset. -/
def altMatcher [DecidableEq α] (p1 p2 : List α) (buf : List α) (start : Nat) :
    Option (Nat × Nat) :=
  if start ≤ buf.length then
    (altFind p1 p2 (buf.drop start)).map (fun r => (start + r.1, start + r.2))
  else none

/-- What one whole-input search step would yield, stated from the
specification's words: search the unconsumed input for the first occurrence
of the literal delimiter; on a match the record runs through the end of the
delimiter; with no match a nonempty residue is the final record and an empty
one is end-of-stream. -/
def specNextRecord [DecidableEq α] (d u : List α) : Option (List α) :=
  match findSub d u with
  | some k => some (u.take (k + d.length))
  | none => if u.isEmpty then none else some u

/-- The unconsumed input left after one specification-level step. -/
def specRest [DecidableEq α] (d u : List α) : List α :=
  match findSub d u with
  | some k => u.drop (k + d.length)
  | none => []

/-! ### Search-primitive lemmas -/

theorem take_eq_length_le {l d : List α} (h : l.take d.length = d) :
    d.length ≤ l.length := by
  have := congrArg List.length h
  simp [List.length_take] at this
  omega

theorem occursAt_zero {l d : List α} : occursAt l d 0 ↔ l.take d.length = d := by
  constructor
  · rintro ⟨-, h⟩; simpa using h
  · intro h
    exact ⟨by simpa using take_eq_length_le h, by simpa using h⟩

theorem occursAt_cons_succ {a : α} {t d : List α} {j : Nat} :
    occursAt (a :: t) d (j + 1) ↔ occursAt t d j := by
  unfold occursAt
  simp only [List.length_cons, List.drop_succ_cons]
  constructor
  · rintro ⟨h1, h2⟩; exact ⟨by omega, h2⟩
  · rintro ⟨h1, h2⟩; exact ⟨by omega, h2⟩

theorem findSub_some [DecidableEq α] {d : List α} :
    ∀ {l : List α} {k : Nat}, findSub d l = some k → occursAt l d k := by
  intro l
  induction l with
  | nil =>
    intro k h
    simp only [findSub] at h
    by_cases hd : d = []
    · simp [hd] at h
      subst hd
      simp [← h, occursAt]
    · simp [hd] at h
  | cons a t ih =>
    intro k h
    simp only [findSub] at h
    by_cases hp : (a :: t).take d.length = d
    · simp [hp] at h
      subst h
      exact occursAt_zero.2 hp
    · simp [hp] at h
      obtain ⟨k', hk', rfl⟩ := h
      exact occursAt_cons_succ.2 (ih hk')

theorem findSub_min [DecidableEq α] {d : List α} :
    ∀ {l : List α} {k : Nat}, findSub d l = some k →
      ∀ j, j < k → ¬ occursAt l d j := by
  intro l
  induction l with
  | nil =>
    intro k h j hj
    simp only [findSub] at h
    by_cases hd : d = [] <;> simp [hd] at h
    omega
  | cons a t ih =>
    intro k h j hj
    simp only [findSub] at h
    by_cases hp : (a :: t).take d.length = d
    · simp [hp] at h; omega
    · simp [hp] at h
      obtain ⟨k', hk', rfl⟩ := h
      cases j with
      | zero => intro hO; exact hp (occursAt_zero.1 hO)
      | succ j' =>
        intro hO
        exact ih hk' j' (by omega) (occursAt_cons_succ.1 hO)

theorem findSub_none [DecidableEq α] {d : List α} :
    ∀ {l : List α}, findSub d l = none → ∀ j, ¬ occursAt l d j := by
  intro l
  induction l with
  | nil =>
    intro h j hO
    rcases hO with ⟨hl, -⟩
    simp only [List.length_nil] at hl
    have hd : d = [] := List.length_eq_zero.1 (by omega)
    subst hd
    simp [findSub] at h
  | cons a t ih =>
    intro h j
    simp only [findSub] at h
    by_cases hp : (a :: t).take d.length = d
    · simp [hp] at h
    · simp [hp] at h
      cases j with
      | zero => intro hO; exact hp (occursAt_zero.1 hO)
      | succ j' => intro hO; exact ih h j' (occursAt_cons_succ.1 hO)

theorem findSub_eq_some [DecidableEq α] {d : List α} :
    ∀ {l : List α} {k : Nat}, occursAt l d k →
      (∀ j, j < k → ¬ occursAt l d j) → findSub d l = some k := by
  intro l
  induction l with
  | nil =>
    intro k h _
    rcases h with ⟨hl, ht⟩
    simp only [List.length_nil] at hl
    have hk : k = 0 := by omega
    have hd : d = [] := List.length_eq_zero.1 (by omega)
    subst hk; subst hd
    simp [findSub]
  | cons a t ih =>
    intro k h hmin
    cases k with
    | zero =>
      have := occursAt_zero.1 h
      simp [findSub, this]
    | succ k' =>
      have hp : ¬ (a :: t).take d.length = d := fun hc =>
        hmin 0 (by omega) (occursAt_zero.2 hc)
      have ht := ih (occursAt_cons_succ.1 h)
        (fun j hj hO => hmin (j + 1) (by omega) (occursAt_cons_succ.2 hO))
      simp [findSub, hp, ht]

theorem findSub_eq_none [DecidableEq α] {d l : List α}
    (h : ∀ j, ¬ occursAt l d j) : findSub d l = none := by
  cases hf : findSub d l with
  | none => rfl
  | some k => exact absurd (findSub_some hf) (h k)

theorem occursAt_drop {buf d : List α} {start k : Nat} (hs : start ≤ buf.length) :
    occursAt (buf.drop start) d k ↔ occursAt buf d (start + k) := by
  unfold occursAt
  rw [List.drop_drop, List.length_drop]
  constructor
  · rintro ⟨h1, h2⟩; exact ⟨by omega, h2⟩
  · rintro ⟨h1, h2⟩; exact ⟨by omega, h2⟩

theorem strFind_some [DecidableEq α] {buf d : List α} {start j : Nat}
    (h : strFind buf d start = some j) :
    start ≤ j ∧ occursAt buf d j ∧ ∀ i, start ≤ i → i < j → ¬ occursAt buf d i := by
  unfold strFind at h
  by_cases hs : start ≤ buf.length
  · simp [hs] at h
    obtain ⟨k, hk, rfl⟩ := h
    refine ⟨by omega, (occursAt_drop hs).1 (findSub_some hk), ?_⟩
    intro i hsi hik hO
    have hi : i = start + (i - start) := by omega
    rw [hi] at hO
    exact findSub_min hk (i - start) (by omega) ((occursAt_drop hs).2 hO)
  · simp [hs] at h

theorem strFind_none [DecidableEq α] {buf d : List α} {start : Nat}
    (h : strFind buf d start = none) :
    ∀ j, start ≤ j → ¬ occursAt buf d j := by
  intro j hj hO
  unfold strFind at h
  by_cases hs : start ≤ buf.length
  · simp [hs] at h
    have hjl : j + d.length ≤ buf.length := hO.1
    have hj2 : j = start + (j - start) := by omega
    rw [hj2] at hO
    exact findSub_none h (j - start) ((occursAt_drop hs).2 hO)
  · rcases hO with ⟨h1, -⟩
    omega

theorem strFind_empty [DecidableEq α] {buf : List α} {start : Nat}
    (hs : start ≤ buf.length) : strFind buf ([] : List α) start = some start := by
  unfold strFind
  have : findSub ([] : List α) (buf.drop start) = some 0 := by
    cases buf.drop start <;> simp [findSub]
  simp [hs, this]

theorem occursAt_append_left {x y d : List α} {p : Nat}
    (hp : p + d.length ≤ x.length) : occursAt (x ++ y) d p ↔ occursAt x d p := by
  unfold occursAt
  have hpx : p ≤ x.length := by omega
  rw [List.drop_append_eq_append_drop, List.length_append]
  have h0 : p - x.length = 0 := by omega
  rw [h0]
  rw [List.take_append_eq_append_take]
  have hlen : (x.drop p).length = x.length - p := List.length_drop _ _
  have h1 : d.length - (x.drop p).length = 0 := by omega
  rw [h1]
  simp only [List.take_zero, List.append_nil]
  constructor
  · rintro ⟨-, h2⟩; exact ⟨hp, h2⟩
  · rintro ⟨-, h2⟩; exact ⟨by omega, h2⟩

theorem take_append_drop_length (l : List α) (n : Nat) :
    l.take n ++ l.drop (l.take n).length = l := by
  by_cases h : n ≤ l.length
  · have hl : (l.take n).length = n := by rw [List.length_take]; omega
    rw [hl, List.take_append_drop]
  · have h1 : l.take n = l := List.take_of_length_le (by omega)
    rw [h1, List.drop_of_length_le le_rfl, List.append_nil]

/-- Fields of the scanner that the refill step never writes, and monotonicity
of the read position across it. -/
theorem refill_fields (s : ReadLines α) (buf : List α) (idx : Nat) (so : Int) :
    (refill s buf idx so).1.content = s.content ∧
    (refill s buf idx so).1.buf = s.buf ∧
    (refill s buf idx so).1.idx = s.idx ∧
    (refill s buf idx so).1.buffer_size = s.buffer_size ∧
    (refill s buf idx so).1.delimiter = s.delimiter ∧
    (refill s buf idx so).1.closed = s.closed ∧
    (refill s buf idx so).1.managed = s.managed ∧
    (refill s buf idx so).1.handleClosed = s.handleClosed ∧
    s.pos ≤ (refill s buf idx so).1.pos := by
  unfold refill fread
  by_cases h : ((s.content.drop s.pos).take s.buffer_size).isEmpty <;> simp [h]

/-- Fields of the scanner that the loop of _next never writes: everything
except the read position and the eof flag; the position never moves back. -/
theorem nextLoopF_frame [DecidableEq α] :
    ∀ (fuel : Nat) (s : ReadLines α) (buf : List α) (idx searchIdx : Nat),
      (nextLoopF fuel s buf idx searchIdx).2.content = s.content ∧
      (nextLoopF fuel s buf idx searchIdx).2.buf = s.buf ∧
      (nextLoopF fuel s buf idx searchIdx).2.idx = s.idx ∧
      (nextLoopF fuel s buf idx searchIdx).2.buffer_size = s.buffer_size ∧
      (nextLoopF fuel s buf idx searchIdx).2.delimiter = s.delimiter ∧
      (nextLoopF fuel s buf idx searchIdx).2.closed = s.closed ∧
      (nextLoopF fuel s buf idx searchIdx).2.managed = s.managed ∧
      (nextLoopF fuel s buf idx searchIdx).2.handleClosed = s.handleClosed ∧
      s.pos ≤ (nextLoopF fuel s buf idx searchIdx).2.pos := by
  intro fuel
  induction fuel with
  | zero =>
    intro s buf idx searchIdx
    simp [nextLoopF]
  | succ fuel ih =>
    intro s buf idx searchIdx
    simp only [nextLoopF]
    cases hsr : searchResult s.delimiter buf idx searchIdx with
    | inl me => simp
    | inr so =>
      cases he : s.eof with
      | true => by_cases hlt : idx < buf.length <;> simp [hlt]
      | false =>
        simp only [Bool.false_eq_true, if_false]
        obtain ⟨f1, f2, f3, f4, f5, f6, f7, f8, f9⟩ := refill_fields s buf idx so
        obtain ⟨g1, g2, g3, g4, g5, g6, g7, g8, g9⟩ :=
          ih (refill s buf idx so).1 (refill s buf idx so).2.1 0 (refill s buf idx so).2.2
        exact ⟨g1.trans f1, g2.trans f2, g3.trans f3, g4.trans f4, g5.trans f5,
          g6.trans f6, g7.trans f7, g8.trans f8, le_trans f9 g9⟩

theorem refill_buf (s : ReadLines α) (buf : List α) (idx : Nat) (so : Int) :
    (refill s buf idx so).2.1 =
      buf.drop idx ++ (s.content.drop s.pos).take s.buffer_size := rfl

theorem refill_pos_le (s : ReadLines α) (buf : List α) (idx : Nat) (so : Int)
    (h : s.pos ≤ s.content.length) :
    (refill s buf idx so).1.pos ≤ s.content.length := by
  unfold refill fread
  have hlen : ((s.content.drop s.pos).take s.buffer_size).length ≤
      s.content.length - s.pos := by
    rw [List.length_take, List.length_drop]; omega
  by_cases hm : ((s.content.drop s.pos).take s.buffer_size).isEmpty <;>
    simp [hm] <;> omega

theorem refill_eof_calib (s : ReadLines α) (buf : List α) (idx : Nat) (so : Int)
    (hbs : 0 < s.buffer_size) (he : s.eof = false) :
    (refill s buf idx so).1.eof = true →
      s.content.length ≤ (refill s buf idx so).1.pos := by
  unfold refill fread
  by_cases hm : ((s.content.drop s.pos).take s.buffer_size).isEmpty
  · intro _
    rw [List.isEmpty_iff, List.take_eq_nil_iff] at hm
    have hrest : s.content.drop s.pos = [] := by
      rcases hm with hm | hm
      · omega
      · exact hm
    have := List.drop_eq_nil_iff_le.1 hrest
    simp [hm, hrest]
    omega
  · intro hcon
    simp [hm, he] at hcon

theorem refill_fuelOk (fuel : Nat) (s : ReadLines α) (buf : List α) (idx : Nat)
    (so : Int) (he : s.eof = false) (hf : fuelOk (fuel + 1) s) :
    fuelOk fuel (refill s buf idx so).1 := by
  unfold fuelOk at hf
  rw [he] at hf
  simp only [Bool.false_eq_true, if_false] at hf
  unfold fuelOk refill fread
  have hlen : ((s.content.drop s.pos).take s.buffer_size).length ≤
      s.content.length - s.pos := by
    rw [List.length_take, List.length_drop]; omega
  cases hm : ((s.content.drop s.pos).take s.buffer_size).isEmpty with
  | true =>
    simp only [hm, eq_self_iff_true, if_true]
    omega
  | false =>
    have hpos1 : 1 ≤ ((s.content.drop s.pos).take s.buffer_size).length := by
      have hne : (s.content.drop s.pos).take s.buffer_size ≠ [] := by
        intro hnil
        rw [hnil] at hm
        simp at hm
      have := List.length_pos.2 hne
      omega
    simp only [hm, Bool.false_eq_true, if_false, he]
    omega

theorem refill_unread (s : ReadLines α) (buf : List α) (idx : Nat) (so : Int) :
    (refill s buf idx so).2.1 ++
      (refill s buf idx so).1.content.drop (refill s buf idx so).1.pos =
      buf.drop idx ++ s.content.drop s.pos := by
  have hgen : s.content.drop
        (s.pos + ((s.content.drop s.pos).take s.buffer_size).length) =
      (s.content.drop s.pos).drop
        ((s.content.drop s.pos).take s.buffer_size).length :=
    (List.drop_drop _ _ _).symm
  unfold refill fread
  cases hm : ((s.content.drop s.pos).take s.buffer_size).isEmpty with
  | true =>
    simp only [hm, eq_self_iff_true, if_true]
    rw [List.append_assoc, hgen, take_append_drop_length]
  | false =>
    simp only [hm, Bool.false_eq_true, if_false]
    rw [List.append_assoc, hgen, take_append_drop_length]

/-- The functional contract of one _next search for a literal delimiter d on
unconsumed input u: the cursor and buffer bounds of the returned triple, the
unconsumed input reconstructed from the returned buffer and state, and the
match end determined by the first occurrence of d in u (residual record or
end-of-stream triple when there is none). -/
def LitPost [DecidableEq α] (u d : List α) (r : (List α × Nat × Nat) × ReadLines α) : Prop :=
  r.1.1.drop r.1.2.1 ++ r.2.content.drop r.2.pos = u ∧
  r.1.2.1 ≤ r.1.2.2 ∧ r.1.2.2 ≤ r.1.1.length ∧
  r.2.pos ≤ r.2.content.length ∧
  (r.2.eof = true → r.2.content.length ≤ r.2.pos) ∧
  (match findSub d u with
   | some k => r.1.2.2 = r.1.2.1 + (k + d.length)
   | none =>
     (u = [] → r.1 = ([], 0, 0)) ∧
     (u ≠ [] → r.1.2.2 = r.1.2.1 + u.length ∧ r.1.2.2 = r.1.1.length))

theorem nextLoopF_lit [DecidableEq α] :
    ∀ (fuel : Nat) (s : ReadLines α) (buf : List α) (idx searchIdx : Nat)
      (d : List α),
      s.delimiter = Delim.lit d →
      idx ≤ buf.length → idx ≤ searchIdx →
      s.pos ≤ s.content.length →
      (s.eof = true → s.content.length ≤ s.pos) →
      0 < s.buffer_size →
      fuelOk fuel s →
      (∀ j, idx ≤ j → j < searchIdx → ¬ occursAt buf d j) →
      LitPost (buf.drop idx ++ s.content.drop s.pos) d
        (nextLoopF fuel s buf idx searchIdx) := by
  intro fuel
  induction fuel with
  | zero =>
    intro s buf idx searchIdx d _ _ _ _ _ _ hfuel _
    exfalso
    unfold fuelOk at hfuel
    split at hfuel <;> omega
  | succ fuel ih =>
    intro s buf idx searchIdx d hdelim hidx hsi hpos heof hbs hfuel hskip
    cases hfind : strFind buf d searchIdx with
    | some j =>
      obtain ⟨hj1, hj2, hj3⟩ := strFind_some hfind
      have hjlen : j + d.length ≤ buf.length := hj2.1
      simp only [nextLoopF, hdelim, searchResult, hfind]
      have hocc : occursAt (buf.drop idx) d (j - idx) := by
        refine (occursAt_drop hidx).2 ?_
        have : idx + (j - idx) = j := by omega
        rw [this]
        exact hj2
      have hfit : (j - idx) + d.length ≤ (buf.drop idx).length := by
        rw [List.length_drop]; omega
      have hoccu : occursAt (buf.drop idx ++ s.content.drop s.pos) d (j - idx) :=
        (occursAt_append_left hfit).2 hocc
      have hmin : ∀ p, p < j - idx →
          ¬ occursAt (buf.drop idx ++ s.content.drop s.pos) d p := by
        intro p hp hO
        have hfit2 : p + d.length ≤ (buf.drop idx).length := by
          rw [List.length_drop]; omega
        have hO2 := (occursAt_append_left hfit2).1 hO
        have hO3 := (occursAt_drop hidx).1 hO2
        by_cases hcmp : idx + p < searchIdx
        · exact hskip (idx + p) (by omega) hcmp hO3
        · exact hj3 (idx + p) (by omega) (by omega) hO3
      have hfs : findSub d (buf.drop idx ++ s.content.drop s.pos) = some (j - idx) :=
        findSub_eq_some hoccu hmin
      unfold LitPost
      dsimp only
      refine ⟨rfl, by omega, by simpa using hjlen, hpos, heof, ?_⟩
      rw [hfs]
      simp
      omega
    | none =>
      have hall : ∀ p, idx ≤ p → ¬ occursAt buf d p := by
        intro p hp
        by_cases hcmp : p < searchIdx
        · exact hskip p hp hcmp
        · exact strFind_none hfind p (by omega)
      have hd : d ≠ [] := by
        intro hdnil
        subst hdnil
        have hsid : searchIdx ≤ idx := by
          by_contra hgt
          push_neg at hgt
          exact hskip idx le_rfl hgt ⟨by simpa using hidx, rfl⟩
        have hsieq : searchIdx = idx := by omega
        rw [hsieq, strFind_empty hidx] at hfind
        simp at hfind
      have hdl : 1 ≤ d.length := by
        have := List.length_pos.2 hd
        omega
      simp only [nextLoopF, hdelim, searchResult, hfind]
      cases he : s.eof with
      | true =>
        have hrest : s.content.drop s.pos = [] :=
          List.drop_eq_nil_of_le (heof he)
        have hfsu : findSub d (buf.drop idx ++ s.content.drop s.pos) = none := by
          apply findSub_eq_none
          intro p hO
          rw [hrest, List.append_nil] at hO
          exact hall (idx + p)  (by omega) ((occursAt_drop hidx).1 hO)
        by_cases hlt : idx < buf.length
        · rw [if_pos rfl, if_pos hlt]
          unfold LitPost
          dsimp only
          refine ⟨rfl, by omega, by simp, hpos, heof, ?_⟩
          rw [hfsu]
          constructor
          · intro hu
            exfalso
            have := congrArg List.length hu
            simp [hrest] at this
            omega
          · intro _
            constructor
            · simp [hrest]
              omega
            · rfl
        · rw [if_pos rfl, if_neg hlt]
          have hdrop : buf.drop idx = [] := List.drop_eq_nil_of_le (by omega)
          have hu : buf.drop idx ++ s.content.drop s.pos = [] := by
            rw [hdrop, hrest, List.append_nil]
          unfold LitPost
          dsimp only
          rw [hfsu]
          refine ⟨?_, le_rfl, by simp, hpos, heof, ?_, ?_⟩
          · simp [hdrop, hrest]
          · intro _; rfl
          · intro hne; exact absurd hu hne
      | false =>
        rw [if_neg (by simp)]
        obtain ⟨f1, f2, f3, f4, f5, f6, f7, f8, f9⟩ :=
          refill_fields s buf idx ((d.length : Int) - 1)
        have hsi2 : (refill s buf idx ((d.length : Int) - 1)).2.2 =
            (buf.drop idx).length - (d.length - 1) := by
          unfold refill
          dsimp only
          omega
        have hres := ih (refill s buf idx ((d.length : Int) - 1)).1
          (refill s buf idx ((d.length : Int) - 1)).2.1 0
          (refill s buf idx ((d.length : Int) - 1)).2.2 d
          (f5.trans hdelim) (Nat.zero_le _) (Nat.zero_le _)
          (by rw [f1]; exact refill_pos_le s buf idx _ hpos)
          (by rw [f1]; exact refill_eof_calib s buf idx _ hbs he)
          (by rw [f4]; exact hbs)
          (refill_fuelOk fuel s buf idx _ he hfuel)
          ?_
        · have hu3 : (refill s buf idx ((d.length : Int) - 1)).2.1.drop 0 ++
              (refill s buf idx ((d.length : Int) - 1)).1.content.drop
                (refill s buf idx ((d.length : Int) - 1)).1.pos =
              buf.drop idx ++ s.content.drop s.pos := by
            rw [List.drop_zero]
            exact refill_unread s buf idx _
          rw [hu3] at hres
          exact hres
        · intro p _ hp hO
          rw [hsi2] at hp
          have hfit : p + d.length ≤ (buf.drop idx).length := by omega
          rw [refill_buf] at hO
          have hO2 := (occursAt_append_left hfit).1 hO
          exact hall (idx + p) (by omega) ((occursAt_drop hidx).1 hO2)

theorem take_append_of_le {x y : List α} {n : Nat} (h : n ≤ x.length) :
    (x ++ y).take n = x.take n := by
  rw [List.take_append_eq_append_take]
  have h0 : n - x.length = 0 := by omega
  rw [h0]
  simp

theorem drop_append_of_le {x y : List α} {n : Nat} (h : n ≤ x.length) :
    (x ++ y).drop n = x.drop n ++ y := by
  rw [List.drop_append_eq_append_drop]
  have h0 : n - x.length = 0 := by omega
  rw [h0]
  simp

theorem fuelOk_nextm (s : ReadLines α) : fuelOk (2 * s.content.length + 2) s := by
  unfold fuelOk
  cases he : s.eof <;> simp [he] <;> omega

/-- The refinement of __next__ for a nonempty literal delimiter on a
well-formed state: the returned record is exactly what one whole-input search
over the unconsumed input yields, the new unconsumed input is the rest, and
well-formedness is preserved. -/
theorem nextRecord_lit [DecidableEq α] (s : ReadLines α) (d : List α)
    (hdelim : s.delimiter = Delim.lit d) (hd : d ≠ []) (hWF : WF s) :
    (nextRecord s).1 = specNextRecord d s.unread ∧
    (nextRecord s).2.unread = specRest d s.unread ∧
    WF (nextRecord s).2 := by
  obtain ⟨hidx, hpos, heof, hbs⟩ := hWF
  have hdl : 1 ≤ d.length := by
    have := List.length_pos.2 hd
    omega
  have P := nextLoopF_lit (2 * s.content.length + 2) s s.buf s.idx s.idx d
    hdelim hidx le_rfl hpos heof hbs (fuelOk_nextm s) (by intro j h1 h2; omega)
  obtain ⟨ff1, ff2, ff3, ff4, ff5, ff6, ff7, ff8, ff9⟩ :=
    nextLoopF_frame (2 * s.content.length + 2) s s.buf s.idx s.idx
  rcases hr : nextLoopF (2 * s.content.length + 2) s s.buf s.idx s.idx
    with ⟨⟨buf, ms, me⟩, s1⟩
  rw [hr] at P ff1 ff2 ff3 ff4 ff5 ff6 ff7 ff8 ff9
  unfold LitPost at P
  dsimp only at P ff1 ff4
  obtain ⟨A, B1, B2, Hpos, Heof, C⟩ := P
  have hnm : nextm s = ((buf, ms, me), s1) := hr
  cases hfs : findSub d (s.buf.drop s.idx ++ s.content.drop s.pos) with
  | some k =>
    simp only [hfs] at C
    have hocc := findSub_some hfs
    have hme0 : me ≠ 0 := by omega
    have hfit : k + d.length ≤ (buf.drop ms).length := by
      rw [List.length_drop]; omega
    have hrec : (buf.drop ms).take (me - ms) =
        (s.buf.drop s.idx ++ s.content.drop s.pos).take (k + d.length) := by
      rw [← A, take_append_of_le hfit]
      congr 1
      omega
    have hrest : buf.drop me ++ s1.content.drop s1.pos =
        (s.buf.drop s.idx ++ s.content.drop s.pos).drop (k + d.length) := by
      rw [← A, drop_append_of_le hfit, List.drop_drop]
      have hms2 : ms + (k + d.length) = me := by omega
      rw [hms2]
    refine ⟨?_, ?_, ?_⟩
    · simp only [nextRecord, hnm]
      rw [if_neg hme0]
      unfold specNextRecord unread
      rw [hfs]
      dsimp only
      exact congrArg some hrec
    · simp only [nextRecord, hnm]
      rw [if_neg hme0]
      unfold specRest unread
      rw [hfs]
      dsimp only
      exact hrest
    · simp only [nextRecord, hnm]
      rw [if_neg hme0]
      refine ⟨by dsimp only; omega, by dsimp only; exact Hpos,
        by dsimp only; exact Heof, ?_⟩
      dsimp only
      rw [ff4]
      exact hbs
  | none =>
    simp only [hfs] at C
    obtain ⟨Cnil, Cne⟩ := C
    by_cases hu : s.buf.drop s.idx ++ s.content.drop s.pos = []
    · have h30 := Cnil hu
      have hbuf : buf = [] := congrArg (fun t => t.1) h30
      have hms : ms = 0 := congrArg (fun t => t.2.1) h30
      have hme : me = 0 := congrArg (fun t => t.2.2) h30
      subst hbuf; subst hms; subst hme
      have hrest1 : s1.content.drop s1.pos = [] := by
        have := A
        simpa [hu] using this
      refine ⟨?_, ?_, ?_⟩
      · simp only [nextRecord, hnm]
        rw [if_pos trivial]
        unfold specNextRecord unread
        rw [hfs]
        dsimp only
        rw [if_pos (by rw [hu]; rfl)]
      · simp only [nextRecord, hnm]
        rw [if_pos trivial]
        unfold specRest unread
        rw [hfs]
        dsimp only
        simpa using hrest1
      · simp only [nextRecord, hnm]
        rw [if_pos trivial]
        exact ⟨by dsimp only; simp, by dsimp only; exact Hpos,
          by dsimp only; exact Heof, by dsimp only; rw [ff4]; exact hbs⟩
    · obtain ⟨Cme, CmeL⟩ := Cne hu
      have hul : 1 ≤ (s.buf.drop s.idx ++ s.content.drop s.pos).length := by
        have := List.length_pos.2 hu
        omega
      have hme0 : me ≠ 0 := by omega
      have hlenA := congrArg List.length A
      rw [List.length_append, List.length_drop] at hlenA
      have hrest1 : s1.content.drop s1.pos = [] :=
        List.length_eq_zero.1 (by omega)
      have hbufu : buf.drop ms = s.buf.drop s.idx ++ s.content.drop s.pos := by
        rw [← A, hrest1, List.append_nil]
      refine ⟨?_, ?_, ?_⟩
      · simp only [nextRecord, hnm]
        rw [if_neg hme0]
        unfold specNextRecord unread
        rw [hfs]
        dsimp only
        rw [if_neg (by simpa [List.isEmpty_iff] using hu)]
        refine congrArg some ?_
        rw [hbufu]
        apply List.take_of_length_le
        omega
      · simp only [nextRecord, hnm]
        rw [if_neg hme0]
        unfold specRest unread
        rw [hfs]
        dsimp only
        rw [List.drop_of_length_le (by omega), hrest1]
        rfl
      · simp only [nextRecord, hnm]
        rw [if_neg hme0]
        exact ⟨by dsimp only; omega, by dsimp only; exact Hpos,
          by dsimp only; exact Heof, by dsimp only; rw [ff4]; exact hbs⟩

/-- __next__ never changes the source content, the chunk size, the delimiter,
or the lifecycle flags of the scanner. -/
theorem nextRecord_frame [DecidableEq α] (s : ReadLines α) :
    (nextRecord s).2.content = s.content ∧
    (nextRecord s).2.buffer_size = s.buffer_size ∧
    (nextRecord s).2.delimiter = s.delimiter ∧
    (nextRecord s).2.closed = s.closed ∧
    (nextRecord s).2.managed = s.managed ∧
    (nextRecord s).2.handleClosed = s.handleClosed := by
  obtain ⟨f1, f2, f3, f4, f5, f6, f7, f8, f9⟩ :=
    nextLoopF_frame (2 * s.content.length + 2) s s.buf s.idx s.idx
  rcases hr : nextLoopF (2 * s.content.length + 2) s s.buf s.idx s.idx
    with ⟨⟨buf, ms, me⟩, s1⟩
  rw [hr] at f1 f4 f5 f6 f7 f8
  have hnm : nextm s = ((buf, ms, me), s1) := hr
  have h2 : (nextRecord s).2 = { s1 with buf := buf, idx := me } := by
    simp only [nextRecord, hnm]
    by_cases hme : me = 0
    · rw [if_pos hme]
    · rw [if_neg hme]
  rw [h2]
  exact ⟨f1, f4, f5, f6, f7, f8⟩

theorem consumeN_frame [DecidableEq α] (s : ReadLines α) :
    ∀ n, (consumeN s n).content = s.content ∧
      (consumeN s n).buffer_size = s.buffer_size ∧
      (consumeN s n).delimiter = s.delimiter ∧
      (consumeN s n).closed = s.closed ∧
      (consumeN s n).managed = s.managed ∧
      (consumeN s n).handleClosed = s.handleClosed := by
  intro n
  induction n generalizing s with
  | zero => exact ⟨rfl, rfl, rfl, rfl, rfl, rfl⟩
  | succ n ih =>
    obtain ⟨g1, g2, g3, g4, g5, g6⟩ := nextRecord_frame s
    obtain ⟨h1, h2, h3, h4, h5, h6⟩ := ih (nextRecord s).2
    exact ⟨h1.trans g1, h2.trans g2, h3.trans g3, h4.trans g4,
      h5.trans g5, h6.trans g6⟩

theorem reset_none_eq (s : ReadLines α) :
    reset s none =
      { content := s.content, pos := (s.content.take s.buffer_size).length,
        buf := s.content.take s.buffer_size, idx := 0,
        eof := (s.content.take s.buffer_size).isEmpty,
        buffer_size := s.buffer_size, delimiter := s.delimiter,
        closed := s.closed, managed := s.managed,
        handleClosed := s.handleClosed } := by
  unfold reset fread
  simp

theorem init_unread (c : List α) (dl : Delim α) (bs : Nat) (m : Bool) :
    (init c dl bs m).unread = c := by
  unfold init unread
  dsimp only
  rw [List.drop_zero]
  exact take_append_drop_length c bs

theorem init_WF (c : List α) (dl : Delim α) (bs : Nat) (m : Bool) (hbs : 0 < bs) :
    WF (init c dl bs m) := by
  unfold WF init
  dsimp only
  refine ⟨Nat.zero_le _, ?_, ?_, hbs⟩
  · rw [List.length_take]; omega
  · intro he
    rw [List.isEmpty_iff, List.take_eq_nil_iff] at he
    rcases he with he | he
    · omega
    · subst he; simp

theorem specNextRecord_nil [DecidableEq α] (d : List α) (hd : d ≠ []) :
    specNextRecord d [] = none := by
  unfold specNextRecord
  simp [findSub, hd]

theorem specNextRecord_none [DecidableEq α] {d u : List α}
    (h : specNextRecord d u = none) : u = [] := by
  unfold specNextRecord at h
  cases hfs : findSub d u with
  | some k => simp [hfs] at h
  | none =>
    simp only [hfs] at h
    by_cases hu : u.isEmpty
    · exact List.isEmpty_iff.1 hu
    · simp [hu] at h

theorem specNextRecord_some [DecidableEq α] {d u r : List α} (hd : d ≠ [])
    (h : specNextRecord d u = some r) :
    1 ≤ r.length ∧ r ++ specRest d u = u ∧
      ((∃ t, r = t ++ d) ∨ specRest d u = []) := by
  have hdl : 1 ≤ d.length := by
    have := List.length_pos.2 hd
    omega
  unfold specNextRecord at h
  unfold specRest
  cases hfs : findSub d u with
  | some k =>
    simp only [hfs] at h ⊢
    obtain ⟨hocc1, hocc2⟩ := findSub_some hfs
    injection h with h
    subst h
    refine ⟨?_, List.take_append_drop _ _, Or.inl ⟨u.take k, ?_⟩⟩
    · rw [List.length_take]
      omega
    · rw [List.take_add, hocc2]
  | none =>
    simp only [hfs] at h ⊢
    by_cases hu : u.isEmpty
    · simp [hu] at h
    · rw [if_neg hu] at h
      injection h with h
      subst h
      refine ⟨?_, by simp, Or.inr trivial⟩
      have := List.length_pos.2 (by simpa [List.isEmpty_iff] using hu)
      omega

theorem runRecords_nil_unread [DecidableEq α] (s : ReadLines α) (d : List α)
    (fuel : Nat) (hdelim : s.delimiter = Delim.lit d) (hd : d ≠ []) (hWF : WF s)
    (hu : s.unread = []) : runRecords s fuel = [] := by
  cases fuel with
  | zero => rfl
  | succ fuel =>
    obtain ⟨R1, -, -⟩ := nextRecord_lit s d hdelim hd hWF
    rw [hu, specNextRecord_nil d hd] at R1
    rcases hnr : nextRecord s with ⟨o, s1⟩
    rw [hnr] at R1
    dsimp only at R1
    subst R1
    simp [runRecords, hnr]

/-- Full-iteration round trip for a nonempty literal delimiter: with enough
fuel, the records collected from a well-formed state concatenate back to the
unconsumed input, and every record except possibly the last one carries the
delimiter as a suffix. -/
theorem runRecords_lit [DecidableEq α] :
    ∀ (fuel : Nat) (s : ReadLines α) (d : List α),
      s.delimiter = Delim.lit d → d ≠ [] → WF s →
      s.unread.length < fuel →
      (runRecords s fuel).flatten = s.unread ∧
      (∀ r ∈ (runRecords s fuel).dropLast, ∃ t, r = t ++ d) := by
  intro fuel
  induction fuel with
  | zero =>
    intro s d _ _ _ h
    omega
  | succ fuel ih =>
    intro s d hdelim hd hWF hlen
    obtain ⟨R1, R2, R3⟩ := nextRecord_lit s d hdelim hd hWF
    have hdelim1 : (nextRecord s).2.delimiter = Delim.lit d :=
      ((nextRecord_frame s).2.2.1).trans hdelim
    rcases hnr : nextRecord s with ⟨o, s1⟩
    rw [hnr] at R1 R2 R3 hdelim1
    dsimp only at R1 R2 R3 hdelim1
    cases o with
    | none =>
      have hu : s.unread = [] := specNextRecord_none R1.symm
      simp only [runRecords, hnr]
      exact ⟨by simp [hu], by simp⟩
    | some r =>
      have hsp : specNextRecord d s.unread = some r := R1.symm
      obtain ⟨h1, h2, h3⟩ := specNextRecord_some hd hsp
      have hlen1 : s1.unread.length < fuel := by
        have hl2 := congrArg List.length h2
        rw [List.length_append] at hl2
        rw [R2]
        omega
      obtain ⟨I1, I2⟩ := ih s1 d hdelim1 hd R3 hlen1
      simp only [runRecords, hnr]
      constructor
      · rw [List.flatten_cons, I1, R2, h2]
      · intro x hx
        cases hrest : runRecords s1 fuel with
        | nil =>
          rw [hrest] at hx
          simp at hx
        | cons y ys =>
          rw [hrest] at hx
          rw [List.dropLast_cons_of_ne_nil (by simp)] at hx
          rcases List.mem_cons.1 hx with hx | hx
          · rcases h3 with h3 | h3
            · exact hx ▸ h3
            · exfalso
              have hnil : runRecords s1 fuel = [] :=
                runRecords_nil_unread s1 d fuel hdelim1 hd R3 (by rw [R2, h3])
              rw [hrest] at hnil
              simp at hnil
          · exact I2 x (by rw [hrest]; exact hx)

/-- For a pattern delimiter, a result whose match end equals the length of
the returned buffer is produced only with the end-of-source flag set: a
pattern match ending exactly at the end of the buffered data is deferred
(refill and retry) until the source is confirmed exhausted. -/
theorem nextLoopF_pat_eof [DecidableEq α] :
    ∀ (fuel : Nat) (s : ReadLines α) (buf : List α) (idx searchIdx : Nat)
      (m : List α → Nat → Option (Nat × Nat)),
      s.delimiter = Delim.pat m →
      fuelOk fuel s →
      (nextLoopF fuel s buf idx searchIdx).1.2.2 =
        (nextLoopF fuel s buf idx searchIdx).1.1.length →
      (nextLoopF fuel s buf idx searchIdx).2.eof = true := by
  intro fuel
  induction fuel with
  | zero =>
    intro s buf idx searchIdx m _ hfuel
    exfalso
    unfold fuelOk at hfuel
    split at hfuel <;> omega
  | succ fuel ih =>
    intro s buf idx searchIdx m hdelim hfuel
    cases hmr : m buf searchIdx with
    | none =>
      simp only [nextLoopF, hdelim, searchResult, hmr]
      cases he : s.eof with
      | true =>
        by_cases hlt : idx < buf.length
        · rw [if_pos rfl, if_pos hlt]
          intro _
          exact he
        · rw [if_pos rfl, if_neg hlt]
          intro _
          exact he
      | false =>
        simp only [Bool.false_eq_true, if_false]
        exact ih _ _ 0 _ m
          (((refill_fields s buf idx _).2.2.2.2.1).trans hdelim)
          (refill_fuelOk fuel s buf idx _ he hfuel)
    | some p =>
      rcases p with ⟨pms, pme⟩
      by_cases hend : pme = buf.length
      · simp only [nextLoopF, hdelim, searchResult, hmr, if_pos hend]
        cases he : s.eof with
        | true =>
          by_cases hlt : idx < buf.length
          · rw [if_pos rfl, if_pos hlt]
            intro _
            exact he
          · rw [if_pos rfl, if_neg hlt]
            intro _
            exact he
        | false =>
          simp only [Bool.false_eq_true, if_false]
          exact ih _ _ 0 _ m
            (((refill_fields s buf idx _).2.2.2.2.1).trans hdelim)
            (refill_fuelOk fuel s buf idx _ he hfuel)
      · simp only [nextLoopF, hdelim, searchResult, hmr, if_neg hend]
        intro h
        exact absurd h hend

theorem specRest_nil [DecidableEq α] (d : List α) (hd : d ≠ []) :
    specRest d [] = [] := by
  unfold specRest
  simp [findSub, hd]

theorem nextm_empty_delim [DecidableEq α] (s : ReadLines α)
    (hdelim : s.delimiter = Delim.lit ([] : List α))
    (hidx : s.idx ≤ s.buf.length) :
    nextm s = ((s.buf, s.idx, s.idx), s) := by
  have h2 : 2 * s.content.length + 2 = (2 * s.content.length + 1) + 1 := rfl
  unfold nextm
  rw [h2]
  simp only [nextLoopF, hdelim, searchResult, strFind_empty hidx]
  simp

theorem peek_none_empty [DecidableEq α] (s : ReadLines α)
    (hdelim : s.delimiter = Delim.lit ([] : List α))
    (hidx : s.idx ≤ s.buf.length) :
    peek s none = ([], s) := by
  simp only [peek, nextm_empty_delim s hdelim hidx]
  simp

theorem nextRecord_empty_delim [DecidableEq α] (s : ReadLines α)
    (hdelim : s.delimiter = Delim.lit ([] : List α))
    (hidx : s.idx ≤ s.buf.length) :
    (nextRecord s).1 = (if s.idx = 0 then none else some []) ∧
    (nextRecord s).2 = s := by
  simp only [nextRecord, nextm_empty_delim s hdelim hidx]
  by_cases h0 : s.idx = 0
  · rw [if_pos h0, if_pos h0]
    exact ⟨rfl, rfl⟩
  · rw [if_neg h0, if_neg h0]
    exact ⟨by simp, rfl⟩

/-- peek() by record for a nonempty literal delimiter on a well-formed state:
the peeked record is the one a whole-input search yields, the unconsumed
input (and hence the stream position of the data the cursor points at) is
unchanged, and the state stays well-formed with the same delimiter. -/
theorem peek_none_lit [DecidableEq α] (s : ReadLines α) (d : List α)
    (hdelim : s.delimiter = Delim.lit d) (hd : d ≠ []) (hWF : WF s) :
    (peek s none).1 = (match specNextRecord d s.unread with
      | some r => r
      | none => []) ∧
    (peek s none).2.unread = s.unread ∧
    WF (peek s none).2 ∧
    (peek s none).2.delimiter = s.delimiter := by
  obtain ⟨hidx, hpos, heof, hbs⟩ := hWF
  have hdl : 1 ≤ d.length := by
    have := List.length_pos.2 hd
    omega
  have P := nextLoopF_lit (2 * s.content.length + 2) s s.buf s.idx s.idx d
    hdelim hidx le_rfl hpos heof hbs (fuelOk_nextm s) (by intro j h1 h2; omega)
  obtain ⟨ff1, ff2, ff3, ff4, ff5, ff6, ff7, ff8, ff9⟩ :=
    nextLoopF_frame (2 * s.content.length + 2) s s.buf s.idx s.idx
  rcases hr : nextLoopF (2 * s.content.length + 2) s s.buf s.idx s.idx
    with ⟨⟨buf, ms, me⟩, s1⟩
  rw [hr] at P ff1 ff4 ff5
  unfold LitPost at P
  dsimp only at P ff1 ff4 ff5
  obtain ⟨A, B1, B2, Hpos, Heof, C⟩ := P
  have hnm : nextm s = ((buf, ms, me), s1) := hr
  have hpk : peek s none =
      ((buf.drop ms).take (me - ms), { s1 with buf := buf, idx := ms }) := by
    simp only [peek, hnm]
  rw [hpk]
  cases hfs : findSub d (s.buf.drop s.idx ++ s.content.drop s.pos) with
  | some k =>
    simp only [hfs] at C
    have hocc := findSub_some hfs
    have hfit : k + d.length ≤ (buf.drop ms).length := by
      rw [List.length_drop]; omega
    refine ⟨?_, A, ⟨by dsimp only; omega, Hpos, Heof, by dsimp only; rw [ff4]; exact hbs⟩,
      ff5⟩
    unfold specNextRecord unread
    rw [hfs]
    dsimp only
    rw [← A, take_append_of_le hfit]
    congr 1
    omega
  | none =>
    simp only [hfs] at C
    obtain ⟨Cnil, Cne⟩ := C
    by_cases hu : s.buf.drop s.idx ++ s.content.drop s.pos = []
    · have h30 := Cnil hu
      have hbuf : buf = [] := congrArg (fun t => t.1) h30
      have hms : ms = 0 := congrArg (fun t => t.2.1) h30
      have hme : me = 0 := congrArg (fun t => t.2.2) h30
      subst hbuf; subst hms; subst hme
      refine ⟨?_, A, ⟨by simp, Hpos, Heof, by dsimp only; rw [ff4]; exact hbs⟩,
        ff5⟩
      unfold specNextRecord unread
      rw [hfs]
      dsimp only
      rw [if_pos (by rw [hu]; rfl)]
      simp
    · obtain ⟨Cme, CmeL⟩ := Cne hu
      have hul : 1 ≤ (s.buf.drop s.idx ++ s.content.drop s.pos).length := by
        have := List.length_pos.2 hu
        omega
      have hlenA := congrArg List.length A
      rw [List.length_append, List.length_drop] at hlenA
      have hrest1 : s1.content.drop s1.pos = [] :=
        List.length_eq_zero.1 (by omega)
      have hbufu : buf.drop ms = s.buf.drop s.idx ++ s.content.drop s.pos := by
        rw [← A, hrest1, List.append_nil]
      refine ⟨?_, A, ⟨by dsimp only; omega, Hpos, Heof, by dsimp only; rw [ff4]; exact hbs⟩,
        ff5⟩
      unfold specNextRecord unread
      rw [hfs]
      dsimp only
      rw [if_neg (by simpa [List.isEmpty_iff] using hu)]
      rw [hbufu]
      apply List.take_of_length_le
      omega

/-- After the unconsumed input is empty, every further __next__ signals
end-of-stream, and the unconsumed input stays empty. -/
theorem consumeN_end [DecidableEq α] :
    ∀ (k : Nat) (s : ReadLines α) (d : List α),
      s.delimiter = Delim.lit d → d ≠ [] → WF s → s.unread = [] →
      (nextRecord (consumeN s k)).1 = none ∧ (consumeN s k).unread = [] := by
  intro k
  induction k with
  | zero =>
    intro s d hdelim hd hWF hu
    obtain ⟨R1, -, -⟩ := nextRecord_lit s d hdelim hd hWF
    rw [hu, specNextRecord_nil d hd] at R1
    exact ⟨R1, hu⟩
  | succ k ih =>
    intro s d hdelim hd hWF hu
    obtain ⟨R1, R2, R3⟩ := nextRecord_lit s d hdelim hd hWF
    have hdelim1 : (nextRecord s).2.delimiter = Delim.lit d :=
      ((nextRecord_frame s).2.2.1).trans hdelim
    have hu1 : (nextRecord s).2.unread = [] := by
      rw [R2, hu, specRest_nil d hd]
    exact ih (nextRecord s).2 d hdelim1 hd R3 hu1

/-- The combined effect of the initial read of peek(size) and its short-read
loop: exactly min(toRead, remaining) units are appended to the buffer, the
position advances by that amount, and the eof flag is set exactly when the
source could not supply toRead units. -/
theorem peek_fill_total (s : ReadLines α) (T : Nat) (b0 : List α) (hT : 1 ≤ T)
    (hpos : s.pos ≤ s.content.length) (he : s.eof = false) :
    peekFillF (T + 1)
      (if ((s.content.drop s.pos).take T).isEmpty
        then { (fread s T).2 with eof := true } else (fread s T).2)
      (b0 ++ (s.content.drop s.pos).take T) T
      ((s.content.drop s.pos).take T).length =
      (b0 ++ (s.content.drop s.pos).take T,
       { s with pos := s.pos + ((s.content.drop s.pos).take T).length,
                eof := if (s.content.drop s.pos).length < T then true
                       else s.eof }) := by
  have hlen : ((s.content.drop s.pos).take T).length =
      min T (s.content.drop s.pos).length := List.length_take _ _
  by_cases hcmp : T ≤ (s.content.drop s.pos).length
  · -- a full read: the loop condition fails at once, eof is untouched
    have htl : ((s.content.drop s.pos).take T).length = T := by omega
    have hne : ¬ ((s.content.drop s.pos).take T).isEmpty = true := by
      rw [List.isEmpty_iff]
      intro hnil
      rw [hnil] at htl
      simp at htl
      omega
    rw [if_neg hne, htl]
    simp only [peekFillF]
    rw [if_neg (by omega)]
    unfold fread
    dsimp only
    rw [if_neg (by omega), htl]
  · by_cases h0 : (s.content.drop s.pos).length = 0
    · -- nothing left: the first read returns nothing and sets eof
      have hnil : s.content.drop s.pos = [] := List.length_eq_zero.1 h0
      have hemp : ((s.content.drop s.pos).take T).isEmpty = true := by
        rw [hnil]; simp
      have htl : ((s.content.drop s.pos).take T).length = 0 := by
        rw [hnil]; simp
      rw [if_pos hemp, htl]
      simp only [peekFillF]
      rw [if_neg (by omega)]
      unfold fread
      dsimp only
      rw [if_pos (by omega), htl]
    · -- a short but nonempty read: one more read returns nothing, sets eof
      have htmp : (s.content.drop s.pos).take T = s.content.drop s.pos :=
        List.take_of_length_le (by omega)
      have htl : ((s.content.drop s.pos).take T).length =
          (s.content.drop s.pos).length := by rw [htmp]
      have hne : ¬ ((s.content.drop s.pos).take T).isEmpty = true := by
        rw [List.isEmpty_iff, htmp]
        intro hnil
        rw [hnil] at h0
        simp at h0
      rw [if_neg hne, htl]
      have hfr : (fread s T).2 =
          { s with pos := s.pos + (s.content.drop s.pos).length } := by
        unfold fread
        dsimp only
        rw [htl]
      simp only [peekFillF]
      rw [if_pos (by constructor <;> omega)]
      rw [hfr]
      unfold fread
      dsimp only
      have hdropP : s.content.drop (s.pos + (s.content.drop s.pos).length) = [] := by
        apply List.drop_eq_nil_of_le
        rw [List.length_drop]
        omega
      rw [hdropP]
      simp only [List.take_nil, List.length_nil, List.isEmpty_nil, List.append_nil,
        Nat.add_zero]
      rw [if_pos trivial]
      obtain ⟨T2, hT2⟩ : ∃ T2, T = T2 + 1 := ⟨T - 1, by omega⟩
      subst hT2
      simp only [peekFillF]
      rw [if_neg (by omega)]
      rw [if_pos (by omega)]


/-- The fetch branch of peek(size): the buffer receives exactly the data the
rounded-up read obtains, and the state records the advanced position and the
recalibrated eof flag. -/
theorem peek_fetch_eq [DecidableEq α] (s : ReadLines α) (n : Int) (hn0 : ¬ n ≤ 0)
    (hcond : 0 < n - ((s.buf.length : Int) - (s.idx : Int)) ∧ s.eof = false)
    (hpos : s.pos ≤ s.content.length)
    (hT1 : 1 ≤ ((n - ((s.buf.length : Int) - (s.idx : Int))).toNat +
      s.buffer_size - 1) / s.buffer_size * s.buffer_size) :
    peek s (some n) =
      (((s.buf ++ (s.content.drop s.pos).take
          (((n - ((s.buf.length : Int) - (s.idx : Int))).toNat +
            s.buffer_size - 1) / s.buffer_size * s.buffer_size)).drop s.idx).take
          n.toNat,
       { s with
         pos := s.pos + ((s.content.drop s.pos).take
           (((n - ((s.buf.length : Int) - (s.idx : Int))).toNat +
             s.buffer_size - 1) / s.buffer_size * s.buffer_size)).length,
         eof := if (s.content.drop s.pos).length <
             ((n - ((s.buf.length : Int) - (s.idx : Int))).toNat +
               s.buffer_size - 1) / s.buffer_size * s.buffer_size then true
           else s.eof,
         buf := s.buf ++ (s.content.drop s.pos).take
           (((n - ((s.buf.length : Int) - (s.idx : Int))).toNat +
             s.buffer_size - 1) / s.buffer_size * s.buffer_size) }) := by
  simp only [peek]
  rw [if_neg hn0, if_pos hcond]
  have hfr1 : (fread s (((n - ((s.buf.length : Int) - (s.idx : Int))).toNat +
      s.buffer_size - 1) / s.buffer_size * s.buffer_size)).1 =
      (s.content.drop s.pos).take
        (((n - ((s.buf.length : Int) - (s.idx : Int))).toNat +
          s.buffer_size - 1) / s.buffer_size * s.buffer_size) := rfl
  rw [hfr1, peek_fill_total s _ s.buf hT1 hpos hcond.2]

/-- The contract of peek by unit count for a positive count on a well-formed
state: the returned data is the prefix of the unconsumed input of the
requested length (shorter only if the source ended first, in which case the
eof flag is set), the cursor does not move, the unconsumed input is
unchanged, and any data fetched is a whole number of chunks unless the
source was exhausted. -/
theorem peek_size_spec [DecidableEq α] (s : ReadLines α) (n : Int)
    (hWF : WF s) (hn : 0 < n) :
    (peek s (some n)).1 = s.unread.take n.toNat ∧
    (peek s (some n)).2.unread = s.unread ∧
    (peek s (some n)).2.idx = s.idx ∧
    ((peek s (some n)).1.length < n.toNat → (peek s (some n)).2.eof = true) ∧
    ((peek s (some n)).2.pos = s.content.length ∨
      s.buffer_size ∣ ((peek s (some n)).2.pos - s.pos)) := by
  obtain ⟨hidx, hpos, heof, hbs⟩ := hWF
  have hn0 : ¬ n ≤ 0 := by omega
  by_cases hcond : 0 < n - ((s.buf.length : Int) - (s.idx : Int)) ∧ s.eof = false
  · -- the fetch branch
    have he1 : 1 ≤ (n - ((s.buf.length : Int) - (s.idx : Int))).toNat := by
      obtain ⟨h1, -⟩ := hcond
      omega
    have hTe : (n - ((s.buf.length : Int) - (s.idx : Int))).toNat ≤
        ((n - ((s.buf.length : Int) - (s.idx : Int))).toNat +
          s.buffer_size - 1) / s.buffer_size * s.buffer_size := by
      rw [Nat.mul_comm]
      have hdm := Nat.div_add_mod ((n - ((s.buf.length : Int) - (s.idx : Int))).toNat +
        s.buffer_size - 1) s.buffer_size
      have hmod := Nat.mod_lt ((n - ((s.buf.length : Int) - (s.idx : Int))).toNat +
        s.buffer_size - 1) hbs
      set a := (n - ((s.buf.length : Int) - (s.idx : Int))).toNat +
        s.buffer_size - 1 with ha
      set q := a / s.buffer_size with hq
      set r := a % s.buffer_size with hrr
      set P := s.buffer_size * q with hP
      omega
    have hT1 : 1 ≤ ((n - ((s.buf.length : Int) - (s.idx : Int))).toNat +
        s.buffer_size - 1) / s.buffer_size * s.buffer_size := le_trans he1 hTe
    have hn' : n.toNat ≤ (s.buf.length - s.idx) +
        (n - ((s.buf.length : Int) - (s.idx : Int))).toNat := by
      omega
    rw [peek_fetch_eq s n hn0 hcond hpos hT1]
    have hlen_tp : ((s.content.drop s.pos).take
        (((n - ((s.buf.length : Int) - (s.idx : Int))).toNat +
          s.buffer_size - 1) / s.buffer_size * s.buffer_size)).length =
        min (((n - ((s.buf.length : Int) - (s.idx : Int))).toNat +
          s.buffer_size - 1) / s.buffer_size * s.buffer_size)
          (s.content.drop s.pos).length := List.length_take _ _
    have hdd : s.content.drop (s.pos + ((s.content.drop s.pos).take
        (((n - ((s.buf.length : Int) - (s.idx : Int))).toNat +
          s.buffer_size - 1) / s.buffer_size * s.buffer_size)).length) =
        (s.content.drop s.pos).drop (((s.content.drop s.pos).take
          (((n - ((s.buf.length : Int) - (s.idx : Int))).toNat +
            s.buffer_size - 1) / s.buffer_size * s.buffer_size)).length) :=
      (List.drop_drop _ _ _).symm
    refine ⟨?_, ?_, rfl, ?_, ?_⟩
    · dsimp only
      unfold unread
      rw [drop_append_of_le hidx]
      rw [List.take_append_eq_append_take, List.take_append_eq_append_take]
      congr 1
      rw [List.take_take]
      congr 1
      rw [List.length_drop]
      omega
    · dsimp only
      unfold unread
      dsimp only
      rw [drop_append_of_le hidx, List.append_assoc, hdd, take_append_drop_length]
    · dsimp only
      intro hlt
      rw [List.length_take, List.length_drop, List.length_append] at hlt
      rw [if_pos ?_]
      rw [List.length_take] at hlt
      omega
    · dsimp only
      by_cases hc2 : (((n - ((s.buf.length : Int) - (s.idx : Int))).toNat +
          s.buffer_size - 1) / s.buffer_size * s.buffer_size) ≤
          (s.content.drop s.pos).length
      · right
        have htlT : ((s.content.drop s.pos).take
            (((n - ((s.buf.length : Int) - (s.idx : Int))).toNat +
              s.buffer_size - 1) / s.buffer_size * s.buffer_size)).length =
            ((n - ((s.buf.length : Int) - (s.idx : Int))).toNat +
              s.buffer_size - 1) / s.buffer_size * s.buffer_size := by omega
        rw [htlT]
        have hsub : s.pos + (((n - ((s.buf.length : Int) - (s.idx : Int))).toNat +
            s.buffer_size - 1) / s.buffer_size * s.buffer_size) - s.pos =
            (((n - ((s.buf.length : Int) - (s.idx : Int))).toNat +
              s.buffer_size - 1) / s.buffer_size * s.buffer_size) := by omega
        rw [hsub]
        exact dvd_mul_left _ _
      · left
        rw [List.length_drop] at hlen_tp hc2
        omega
  · -- no additional read: either enough data is buffered or eof is set
    have hpk : peek s (some n) = ((s.buf.drop s.idx).take n.toNat, s) := by
      simp only [peek]
      rw [if_neg hn0, if_neg hcond]
    rw [hpk]
    by_cases heof1 : s.eof = true
    · have hrest : s.content.drop s.pos = [] :=
        List.drop_eq_nil_of_le (heof heof1)
      refine ⟨?_, rfl, rfl, fun _ => heof1, Or.inr (by simp)⟩
      unfold unread
      rw [hrest, List.append_nil]
    · have heq : s.eof = false := by
        cases hb : s.eof with
        | false => rfl
        | true => exact absurd hb heof1
      have hext : ¬ 0 < n - ((s.buf.length : Int) - (s.idx : Int)) :=
        fun h => hcond ⟨h, heq⟩
      have hle : n.toNat ≤ s.buf.length - s.idx := by omega
      refine ⟨?_, rfl, rfl, ?_, Or.inr (by simp)⟩
      · unfold unread
        rw [take_append_of_le (by rw [List.length_drop]; omega)]
      · intro hlt
        exfalso
        rw [List.length_take, List.length_drop] at hlt
        omega

theorem reset_after_consume [DecidableEq α] (content : List α) (dl : Delim α)
    (bs : Nat) (m : Bool) (n : Nat) :
    reset (consumeN (init content dl bs m) n) none = init content dl bs m := by
  obtain ⟨h1, h2, h3, h4, h5, h6⟩ := consumeN_frame (init content dl bs m) n
  rw [reset_none_eq, h1, h2, h3, h4, h5, h6]
  rfl

/-- The end-of-stream signal of _next for a nonempty literal delimiter: the
triple ([], 0, 0) is produced exactly on empty unconsumed input, and every
legitimate result has a nonzero match end. -/
theorem nextm_sentinel_iff [DecidableEq α] (s : ReadLines α) (d : List α)
    (hdelim : s.delimiter = Delim.lit d) (hd : d ≠ []) (hWF : WF s) :
    (s.unread = [] → (nextm s).1 = ([], 0, 0)) ∧
    (s.unread ≠ [] → (nextm s).1.2.2 ≠ 0) := by
  obtain ⟨hidx, hpos, heof, hbs⟩ := hWF
  have hdl : 1 ≤ d.length := by
    have := List.length_pos.2 hd
    omega
  have P := nextLoopF_lit (2 * s.content.length + 2) s s.buf s.idx s.idx d
    hdelim hidx le_rfl hpos heof hbs (fuelOk_nextm s) (by intro j h1 h2; omega)
  rcases hr : nextLoopF (2 * s.content.length + 2) s s.buf s.idx s.idx
    with ⟨⟨buf, ms, me⟩, s1⟩
  rw [hr] at P
  unfold LitPost at P
  dsimp only at P
  obtain ⟨A, B1, B2, Hpos, Heof, C⟩ := P
  have hnm : nextm s = ((buf, ms, me), s1) := hr
  constructor
  · intro hu
    unfold unread at hu
    have hfs : findSub d (s.buf.drop s.idx ++ s.content.drop s.pos) = none := by
      rw [hu]
      simp [findSub, hd]
    simp only [hfs] at C
    rw [hnm]
    exact C.1 hu
  · intro hu
    unfold unread at hu
    rw [hnm]
    dsimp only
    cases hfs : findSub d (s.buf.drop s.idx ++ s.content.drop s.pos) with
    | some k =>
      simp only [hfs] at C
      omega
    | none =>
      simp only [hfs] at C
      obtain ⟨-, Cne⟩ := C
      obtain ⟨Cme, -⟩ := Cne hu
      have hul : 1 ≤ (s.buf.drop s.idx ++ s.content.drop s.pos).length := by
        have := List.length_pos.2 hu
        omega
      omega

theorem close_closed (t : ReadLines α) (h : t.closed = true) : close t = t := by
  unfold close
  rw [if_pos h]

theorem close_idem (s : ReadLines α) : close (close s) = close s := by
  by_cases h : s.closed = true
  · rw [close_closed s h]
    exact close_closed s h
  · refine close_closed _ ?_
    unfold close
    rw [if_neg h]

theorem close_open_eq (s : ReadLines α) (h : s.closed = false) :
    close s = { s with closed := true, buf := [], idx := 0, eof := true, handleClosed := s.handleClosed || s.managed } := by
  unfold close
  rw [if_neg (by rw [h]; simp)]

/-- On a state whose buffer is empty with the cursor at 0 and eof set (the
state close leaves behind), __next__ signals end-of-stream for any literal
delimiter, performing no read. -/
theorem nextRecord_drained [DecidableEq α] (s : ReadLines α) (d : List α)
    (hdelim : s.delimiter = Delim.lit d) (hbuf : s.buf = []) (hidx : s.idx = 0)
    (heof : s.eof = true) : (nextRecord s).1 = none := by
  by_cases hdnil : d = []
  · subst hdnil
    obtain ⟨h1, h2⟩ := nextRecord_empty_delim s hdelim (by rw [hbuf, hidx]; simp)
    rw [h1, hidx]
    simp
  · have h2 : 2 * s.content.length + 2 = (2 * s.content.length + 1) + 1 := rfl
    have hsf : strFind s.buf d s.idx = none := by
      rw [hbuf, hidx]
      unfold strFind
      rw [if_pos (by simp)]
      simp [findSub, hdnil]
    have hnm : nextm s = (([], 0, 0), s) := by
      unfold nextm
      rw [h2]
      simp only [nextLoopF, hdelim, searchResult, hsf]
      rw [if_pos heof]
      rw [if_neg (by rw [hbuf, hidx]; simp)]
    simp [nextRecord, hnm]

/-! ### Claim theorems -/

/-- Claim C1 (amended): for every finite input, every nonempty literal
delimiter and every positive chunk size, concatenating all records yielded by
iterating the scanner reproduces the input exactly, and every record except
possibly the final one ends with the delimiter.  The amendment excludes the
empty literal delimiter, on which iteration stops at once and yields nothing
(see the counterexample), and degenerate nonpositive chunk sizes, with which
the initial read of nothing marks the source exhausted. -/
theorem c1_roundtrip_lit {α : Type} [DecidableEq α] (content d : List α)
    (bs : Nat) (m : Bool) (hd : d ≠ []) (hbs : 0 < bs) :
    (allRecords (init content (Delim.lit d) bs m)).flatten = content ∧
    ∀ r ∈ (allRecords (init content (Delim.lit d) bs m)).dropLast,
      ∃ t, r = t ++ d := by
  have hWF := init_WF content (Delim.lit d) bs m hbs
  have hu := init_unread content (Delim.lit d) bs m
  have hlen : (init content (Delim.lit d) bs m).unread.length <
      (init content (Delim.lit d) bs m).content.length + 1 := by
    rw [hu]
    have hc : (init content (Delim.lit d) bs m).content = content := rfl
    rw [hc]
    omega
  have h := runRecords_lit ((init content (Delim.lit d) bs m).content.length + 1)
    (init content (Delim.lit d) bs m) d rfl hd hWF hlen
  rw [hu] at h
  exact h

/-- Witness for C1 at a concrete input and delimiter. -/
theorem c1_roundtrip_lit_witness :
    (allRecords (init ['a', '~', '\n', 'b', '~', '\n'] (Delim.lit ['\n']) 4
        true)).flatten = ['a', '~', '\n', 'b', '~', '\n'] ∧
    ∀ r ∈ (allRecords (init ['a', '~', '\n', 'b', '~', '\n'] (Delim.lit ['\n']) 4
        true)).dropLast, ∃ t, r = t ++ ['\n'] :=
  c1_roundtrip_lit ['a', '~', '\n', 'b', '~', '\n'] ['\n'] 4 true
    (by decide) (by decide)

/-- Counterexample to C1 as stated: with the empty string as the literal
delimiter the very first search matches with end 0, __next__ raises
StopIteration at once, no records are yielded, and the concatenation of the
yielded records is empty rather than the input. -/
theorem c1_empty_delimiter_cex :
    (allRecords (init ['a'] (Delim.lit ([] : List Char)) 1048576 true)).flatten
      ≠ ['a'] := by
  decide

/-- Claim C2: a failed literal search retains enough of the buffer (the
compaction keeps everything from the cursor on, and the re-search starts
len(delimiter) - 1 units before the old end) that a delimiter split across a
chunk boundary is still found, so one __next__ on any well-formed state
returns exactly the record that a single whole-input search over the
unconsumed input would yield, and leaves exactly the rest unconsumed. -/
theorem c2_boundary_refinement {α : Type} [DecidableEq α] (s : ReadLines α)
    (d : List α) (hdelim : s.delimiter = Delim.lit d) (hd : d ≠ [])
    (hWF : WF s) :
    (nextRecord s).1 = specNextRecord d s.unread ∧
    (nextRecord s).2.unread = specRest d s.unread :=
  ⟨(nextRecord_lit s d hdelim hd hWF).1, (nextRecord_lit s d hdelim hd hWF).2.1⟩

/-- Witness for C2 on the scenario of the specification: chunk size 4 and a
three-unit delimiter straddling the boundary at offset 4. -/
theorem c2_boundary_refinement_witness :
    (nextRecord (init ['a', 'b', 'X', 'Y', 'Z', 'c', 'd']
        (Delim.lit ['X', 'Y', 'Z']) 4 true)).1 =
      specNextRecord ['X', 'Y', 'Z']
        (init ['a', 'b', 'X', 'Y', 'Z', 'c', 'd']
          (Delim.lit ['X', 'Y', 'Z']) 4 true).unread ∧
    (nextRecord (init ['a', 'b', 'X', 'Y', 'Z', 'c', 'd']
        (Delim.lit ['X', 'Y', 'Z']) 4 true)).1 =
      some ['a', 'b', 'X', 'Y', 'Z'] :=
  ⟨(c2_boundary_refinement _ ['X', 'Y', 'Z'] rfl (by decide) (by decide)).1,
    by decide⟩

/-- Claim C3: for a pattern delimiter, a result whose match end coincides
with the end of the returned buffer is produced only once the source is
confirmed exhausted (any such match seen earlier triggers refill-and-retry);
and concretely, with pattern a+ and chunk size 3 on content baaab, the run of
three a-units straddling the first chunk boundary is returned as one merged
match, giving the records baaa and b. -/
theorem c3_pattern_deferred :
    (∀ {α : Type} [DecidableEq α] (s : ReadLines α)
        (m : List α → Nat → Option (Nat × Nat)),
      s.delimiter = Delim.pat m →
      (nextm s).1.2.2 = (nextm s).1.1.length →
      (nextm s).2.eof = true) ∧
    allRecords (init ['b', 'a', 'a', 'a', 'b'] (Delim.pat (plusMatcher 'a'))
        3 true) = [['b', 'a', 'a', 'a'], ['b']] := by
  constructor
  · intro α inst s m hdelim hend
    exact nextLoopF_pat_eof (2 * s.content.length + 2) s s.buf s.idx s.idx m
      hdelim (fuelOk_nextm s) hend
  · decide

/-- Witness for C3: a scanner whose pattern match ends at the buffer end has
the end-of-source flag set when the result is produced. -/
theorem c3_pattern_deferred_witness :
    (nextm (init ['a', 'a', 'a'] (Delim.pat (plusMatcher 'a')) 2 true)).2.eof
      = true :=
  c3_pattern_deferred.1 (init ['a', 'a', 'a'] (Delim.pat (plusMatcher 'a')) 2
    true) (plusMatcher 'a') rfl (by decide)

/-- Claim C4: the concrete scenarios of the specification, with the default
chunk size: content a~ b~ c~ each followed by a newline, split on the newline
and on the tilde, and the empty source yielding no records with an immediate
end-of-stream signal and no error. -/
theorem c4_concrete_scenarios :
    allRecords (init ['a', '~', '\n', 'b', '~', '\n', 'c', '~', '\n']
        (Delim.lit ['\n']) 1048576 true) =
      [['a', '~', '\n'], ['b', '~', '\n'], ['c', '~', '\n']] ∧
    allRecords (init ['a', '~', '\n', 'b', '~', '\n', 'c', '~', '\n']
        (Delim.lit ['~']) 1048576 true) =
      [['a', '~'], ['\n', 'b', '~'], ['\n', 'c', '~'], ['\n']] ∧
    allRecords (init ([] : List Char) (Delim.lit ['\n']) 1048576 true) = [] ∧
    (nextRecord (init ([] : List Char) (Delim.lit ['\n']) 1048576 true)).1 =
      none := by
  exact ⟨by decide, by decide, by decide, by decide⟩

/-- Claim C5 (amended): for literal delimiters, peeking by record is
idempotent and non-consuming: the record peek returns is the record the
following __next__ returns (the empty sequence when __next__ signals
end-of-stream), a second peek returns the same record, a following __next__
behaves exactly as it would have without the peek, and the unconsumed input
is unchanged by peek.  The amendment restricts the claim to literal
delimiters: for a pattern delimiter the refill that peek performs can let a
longer or earlier match appear, so the following call can return a different
record (see the counterexample). -/
theorem c5_peek_lit {α : Type} [DecidableEq α] (s : ReadLines α) (d : List α)
    (hdelim : s.delimiter = Delim.lit d) (hWF : WF s) :
    ((nextRecord s).1 = none → (peek s none).1 = []) ∧
    (∀ r, (nextRecord s).1 = some r → (peek s none).1 = r) ∧
    (nextRecord (peek s none).2).1 = (nextRecord s).1 ∧
    (peek (peek s none).2 none).1 = (peek s none).1 ∧
    (peek s none).2.unread = s.unread := by
  by_cases hd : d = []
  · subst hd
    have hpeek := peek_none_empty s hdelim hWF.1
    obtain ⟨hn1, hn2⟩ := nextRecord_empty_delim s hdelim hWF.1
    refine ⟨fun _ => by rw [hpeek], ?_, by rw [hpeek],
      by rw [hpeek]; simp [hpeek], by rw [hpeek]⟩
    intro r hr
    rw [hn1] at hr
    rw [hpeek]
    by_cases h0 : s.idx = 0
    · rw [if_pos h0] at hr
      exact absurd hr (by simp)
    · rw [if_neg h0] at hr
      exact Option.some.inj hr
  · obtain ⟨P1, P2, P3, P4⟩ := peek_none_lit s d hdelim hd hWF
    obtain ⟨N1, -, -⟩ := nextRecord_lit s d hdelim hd hWF
    obtain ⟨N1', -, -⟩ := nextRecord_lit (peek s none).2 d (P4.trans hdelim) hd P3
    obtain ⟨P1', -, -, -⟩ := peek_none_lit (peek s none).2 d (P4.trans hdelim) hd P3
    refine ⟨?_, ?_, ?_, ?_, P2⟩
    · intro h
      rw [N1] at h
      rw [P1]
      simp only [h]
    · intro r hr
      rw [N1] at hr
      rw [P1]
      simp only [hr]
    · rw [N1', P2, ← N1]
    · rw [P1', P2, ← P1]

/-- Witness for C5 on a concrete literal-delimiter scanner. -/
theorem c5_peek_lit_witness :
    (nextRecord (peek (init ['a', '~', '\n', 'b'] (Delim.lit ['\n']) 2 true)
        none).2).1 =
      (nextRecord (init ['a', '~', '\n', 'b'] (Delim.lit ['\n']) 2 true)).1 :=
  (c5_peek_lit (init ['a', '~', '\n', 'b'] (Delim.lit ['\n']) 2 true) ['\n']
    rfl (by decide)).2.2.1

/-- Counterexample to C5 as stated, with a pattern delimiter (the regular
expression abb|b, whose search tries positions left to right, preferring the
first alternative): on content cabb with chunk size 3 peek returns cab, but
the very next call returns cabb, because the refill performed during peek
lets the longer first alternative match at an earlier position. -/
theorem c5_pattern_peek_cex :
    (peek (init ['c', 'a', 'b', 'b']
        (Delim.pat (altMatcher ['a', 'b', 'b'] ['b'])) 3 true) none).1 =
      ['c', 'a', 'b'] ∧
    (nextRecord (peek (init ['c', 'a', 'b', 'b']
        (Delim.pat (altMatcher ['a', 'b', 'b'] ['b'])) 3 true) none).2).1 =
      some ['c', 'a', 'b', 'b'] ∧
    (['c', 'a', 'b'] : List Char) ≠ ['c', 'a', 'b', 'b'] := by
  exact ⟨by decide, by decide, by decide⟩

/-- Claim C6: after consuming any number of records, reset() restores the
scanner to exactly its freshly constructed state (source seeked back to the
start position, buffer re-read, cursor 0, end-of-source flag recomputed), so
a full consumption afterwards yields the same records in the same order; and
passing a delimiter to reset replaces the delimiter from then on. -/
theorem c6_reset_replay {α : Type} [DecidableEq α] (content : List α)
    (dl : Delim α) (bs : Nat) (m : Bool) (N : Nat) :
    reset (consumeN (init content dl bs m) N) none = init content dl bs m ∧
    allRecords (reset (consumeN (init content dl bs m) N) none) =
      allRecords (init content dl bs m) ∧
    ∀ d2, (reset (consumeN (init content dl bs m) N) (some d2)).delimiter
      = d2 := by
  have h := reset_after_consume content dl bs m N
  exact ⟨h, by rw [h], fun d2 => rfl⟩

/-- Claim C7: for a positive unit count, peek returns exactly that many units
from the cursor on, or fewer only if the source ended first (in which case
the end-of-source flag is set); the cursor does not move, the unconsumed
input is unchanged, and the data fetched is a whole multiple of the chunk
size unless the source was exhausted. -/
theorem c7_peek_count {α : Type} [DecidableEq α] (s : ReadLines α) (n : Int)
    (hWF : WF s) (hn : 0 < n) :
    (peek s (some n)).1 = s.unread.take n.toNat ∧
    (peek s (some n)).2.unread = s.unread ∧
    (peek s (some n)).2.idx = s.idx ∧
    ((peek s (some n)).1.length < n.toNat → (peek s (some n)).2.eof = true) ∧
    ((peek s (some n)).2.pos = s.content.length ∨
      s.buffer_size ∣ ((peek s (some n)).2.pos - s.pos)) :=
  peek_size_spec s n hWF hn

/-- Witness for C7: asking for three units with chunk size 2 and only two
buffered exercises the rounded-up fetch. -/
theorem c7_peek_count_witness :
    (peek (init ['x', 'y', 'z', 'w'] (Delim.lit ['\n']) 2 true) (some 3)).1 =
      (init ['x', 'y', 'z', 'w'] (Delim.lit ['\n']) 2 true).unread.take
        (3 : Int).toNat :=
  (c7_peek_count (init ['x', 'y', 'z', 'w'] (Delim.lit ['\n']) 2 true) 3
    (by decide) (by decide)).1

/-- Claim C8 (amended, restricted to nonempty literal delimiters): the
end-of-stream signal is the empty record with the zero-length match (0, 0),
produced exactly when the unconsumed input is empty; every legitimate record
of a nonempty literal delimiter has a nonzero match end, so the signal is
unambiguous; and once the input is exhausted every subsequent call signals
end-of-stream.  The amendment is forced because for an empty literal
delimiter (and likewise for patterns matching the empty string) a legitimate
zero-length match at position 0 produces the very same signal on a nonempty
stream (see the counterexample). -/
theorem c8_eos_signal {α : Type} [DecidableEq α] (s : ReadLines α)
    (d : List α) (hdelim : s.delimiter = Delim.lit d) (hd : d ≠ [])
    (hWF : WF s) :
    (s.unread = [] → (nextm s).1 = ([], 0, 0)) ∧
    (s.unread ≠ [] → (nextm s).1.2.2 ≠ 0) ∧
    (s.unread = [] → ∀ k, (nextRecord (consumeN s k)).1 = none) := by
  obtain ⟨h1, h2⟩ := nextm_sentinel_iff s d hdelim hd hWF
  exact ⟨h1, h2, fun hu k => (consumeN_end k s d hdelim hd hWF hu).1⟩

/-- Witness for C8 on a drained scanner. -/
theorem c8_eos_signal_witness :
    (nextm (init ([] : List Char) (Delim.lit ['\n']) 4 true)).1 = ([], 0, 0) :=
  (c8_eos_signal (init ([] : List Char) (Delim.lit ['\n']) 4 true) ['\n'] rfl
    (by decide) (by decide)).1 (by decide)

/-- Counterexample to C8 as stated: with the empty literal delimiter, the
first search on the nonempty stream ab legitimately matches with a zero
span at position 0, and the call signals end-of-stream even though the
residual tail was never returned, so the signal is not distinguishable from
a legitimately empty delimited record by its match span. -/
theorem c8_zero_span_cex :
    (nextRecord (init ['a', 'b'] (Delim.lit ([] : List Char)) 4 true)).1
        = none ∧
    (init ['a', 'b'] (Delim.lit ([] : List Char)) 4 true).unread = ['a', 'b'] := by
  exact ⟨by decide, by decide⟩

/-- Claim C9 (amended): close on an open scanner is idempotent, releases the
buffer, resets the cursor, sets the eof flag, and closes the underlying
handle only when the scanner owns it (a borrowed handle is never closed);
after close, record retrieval does not fail with a dedicated error (the
source defines no ScannerClosedError): it signals ordinary end-of-stream,
exactly as an exhausted stream does. -/
theorem c9_close_contract {α : Type} [DecidableEq α] (s : ReadLines α)
    (hopen : s.closed = false) :
    close (close s) = close s ∧
    (close s).buf = [] ∧
    (close s).idx = 0 ∧
    (close s).eof = true ∧
    (close s).closed = true ∧
    (close s).handleClosed = (s.handleClosed || s.managed) ∧
    (s.managed = false → (close s).handleClosed = s.handleClosed) ∧
    ∀ d, (close s).delimiter = Delim.lit d → (nextRecord (close s)).1 = none := by
  have hcl := close_open_eq s hopen
  refine ⟨close_idem s, by rw [hcl], by rw [hcl], by rw [hcl], by rw [hcl],
    by rw [hcl], ?_, ?_⟩
  · intro hm
    rw [hcl]
    dsimp only
    rw [hm]
    simp
  · intro d hdelim2
    exact nextRecord_drained (close s) d hdelim2 (by rw [hcl]) (by rw [hcl])
      (by rw [hcl])

/-- Witness for C9 on a concrete open scanner with a borrowed handle. -/
theorem c9_close_contract_witness :
    (nextRecord (close (init ['a', 'b'] (Delim.lit ['\n']) 4 false))).1 = none ∧
    (close (init ['a', 'b'] (Delim.lit ['\n']) 4 false)).handleClosed = false :=
  ⟨(c9_close_contract (init ['a', 'b'] (Delim.lit ['\n']) 4 false) rfl).2.2.2.2.2.2.2
     ['\n'] rfl,
   (c9_close_contract (init ['a', 'b'] (Delim.lit ['\n']) 4 false) rfl).2.2.2.2.2.1⟩

/-- Counterexample to C9 as stated: after close, further record retrieval
does not fail at all: __next__ on the closed scanner returns the ordinary
end-of-stream signal (no record) and leaves the closed state unchanged,
indistinguishable from normal exhaustion; no ScannerClosedError exists in
the code. -/
theorem c9_close_no_error_cex :
    (nextRecord (close (init ['a', 'b'] (Delim.lit ['\n']) 4 true))).1 = none ∧
    (nextRecord (close (init ['a', 'b'] (Delim.lit ['\n']) 4 true))).2 =
      close (init ['a', 'b'] (Delim.lit ['\n']) 4 true) := by
  exact ⟨by decide, by rfl⟩

/-- Claim C10: a peek by a nonpositive unit count returns the empty sequence
at once, reads nothing, and leaves the whole scanner state (buffer, cursor,
end-of-source flag, read position) unchanged. -/
theorem c10_nonpositive_peek {α : Type} [DecidableEq α] (s : ReadLines α)
    (n : Int) (hn : n ≤ 0) : peek s (some n) = ([], s) := by
  simp only [peek]
  rw [if_pos hn]

/-- Witness for C10 with a negative count. -/
theorem c10_nonpositive_peek_witness :
    peek (init ['a', 'b'] (Delim.lit ['\n']) 4 true) (some (-1)) =
      ([], init ['a', 'b'] (Delim.lit ['\n']) 4 true) :=
  c10_nonpositive_peek (init ['a', 'b'] (Delim.lit ['\n']) 4 true) (-1)
    (by decide)
